import Mathlib

/-!
Shallow embedding of `src/Observable.ts` (the yaku Observable class).

An Observable is a node of a tree: it owns an ordered list `subscribers`
of child node ids, a back reference `publisher`, optional transforms
`onEmit` / `onError`, and an internal `_nextErr` handler (present exactly
on nodes created by `subscribe`, recorded here as the flag `hasNextErr`).

Futures (promises) are modelled by the type `Res`: a future either
settles with a value (`ok`), settles with a failure reason (`err`), or
never settles (`pending`).  A user transform is a function `a -> Res a`:
returning a plain value or a resolved future is `ok`, throwing or
returning a rejected future is `err`, and returning a never settling
future is `pending`.

The bound `emit` function of a node (as passed around by `Observable.merge`)
is not a pure value transform, so handlers form a small inductive language:
`fn` is a pure user transform, `emitTo m` is the bound emit of node `m`
(the success handler that merge subscribes onto every source), and
`rejectTo m` is the local `onError` closure of merge, which re-emits the
failure reason as a rejected future into node `m`.

`emit` itself translates the source loop

  while (i < len) {
    subscriber = this.subscribers[i++];
    _.Promise.resolve(val).then(subscriber._onEmit, subscriber._onError)
      .then(subscriber.emit, subscriber._nextErr);
  }

Per subscriber: the first `then` stage applies `onEmit` on a settled
success and `onError` on a settled failure (an absent handler passes the
settled outcome through unchanged, and a pending input never fires);
the second stage feeds a success into the subscriber own `emit` and a
failure into the subscriber `_nextErr`, which emits the reason as a
rejected future into the same subscriber.  Promise continuations never
mutate node records, so the dispatch interpreter `disp` reads a fixed
state and returns the list of deliveries: one entry `(s, r)` each time
the emit of node `s` is invoked with settled outcome `r`.  The
interpreter runs continuations eagerly (depth first) with explicit fuel;
the JS microtask queue interleaves sibling chains, but the projection of
the delivery sequence onto any single node is the same.
-/

namespace Yaku

/-- Outcome of a future: settled with a value, settled with a failure
reason, or never settling. -/
inductive Res (α : Type) where
  | ok : α → Res α
  | err : α → Res α
  | pending : Res α
deriving DecidableEq

/-- A handler slot of a subscriber: a pure user transform, the bound
`emit` of node `m` (used by `merge` as the success handler it subscribes
onto each source), or the error forwarding closure of `merge`, which
emits the reason as a rejected future into node `m`. -/
inductive Handler (α : Type) where
  | fn : (α → Res α) → Handler α
  | emitTo : Nat → Handler α
  | rejectTo : Nat → Handler α

/-- One Observable node.  `hasNextErr` records whether the internal
`_nextErr` closure is present; `subscribe` always installs it, direct
construction never does, so it also marks provenance by `subscribe`. -/
structure Node (α : Type) where
  subscribers : List Nat
  publisher : Option Nat
  onEmit : Option (Handler α)
  onError : Option (Handler α)
  hasNextErr : Bool

/-- The heap of all nodes; a node id is an index into `nodes`. -/
structure St (α : Type) where
  nodes : List (Node α)

/-- The delivery log: entry `(s, r)` means the emit of node `s` was
invoked with settled outcome `r`. -/
abbrev Log (α : Type) := List (Nat × Res α)

/-- The subscribers list of node `n` (empty for an id outside the heap). -/
def subsOf (st : St α) (n : Nat) : List Nat :=
  match st.nodes[n]? with
  | some nd => nd.subscribers
  | none => []

/-- Apply one handler to a settled value: the result of the first `then`
stage, plus an optional emit effect `(m, w)` meaning outcome `w` is
emitted into node `m` while the stage runs (only the merge handlers have
such an effect; their own stage result is `ok default`, the `undefined`
returned by the bound emit). -/
def applyH [Inhabited α] (h : Handler α) (v : α) : Res α × Option (Nat × Res α) :=
  match h with
  | .fn f => (f v, none)
  | .emitTo m => (.ok default, some (m, .ok v))
  | .rejectTo m => (.ok default, some (m, .err v))

/-- First `then` stage for one subscriber node: `onEmit` on success,
`onError` on failure, pass through when the matching handler is absent,
and nothing ever fires on a pending input. -/
def stage1 [Inhabited α] (nd : Node α) (val : Res α) : Res α × Option (Nat × Res α) :=
  match val with
  | .ok v =>
    match nd.onEmit with
    | none => (.ok v, none)
    | some h => applyH h v
  | .err r =>
    match nd.onError with
    | none => (.err r, none)
    | some h => applyH h r
  | .pending => (.pending, none)

/-- The full promise chain that `emit` builds for one subscriber `s`,
given the dispatch function `dispF` used for nested emits: run `stage1`,
perform its emit effect, then feed a success into the emit of `s` and a
failure into the `_nextErr` of `s` (which re-emits it as a rejected
future into `s`); a missing `_nextErr` drops the failure. -/
def slotLog [Inhabited α] (st : St α) (dispF : List Nat → Res α → Log α)
    (s : Nat) (val : Res α) : Log α :=
  match st.nodes[s]? with
  | none => []
  | some nd =>
    let p := stage1 nd val
    (match p.2 with
     | some (m, w) => dispF (subsOf st m) w
     | none => []) ++
    (match p.1 with
     | .ok v => (s, Res.ok v) :: dispF nd.subscribers (.ok v)
     | .err r => if nd.hasNextErr then (s, Res.err r) :: dispF nd.subscribers (.err r) else []
     | .pending => [])

/-- Fuel indexed dispatch: deliveries produced by emitting `val` to the
subscriber list `subs` inside the fixed state `st`. -/
def disp [Inhabited α] (st : St α) : Nat → List Nat → Res α → Log α
  | 0, _, _ => []
  | f + 1, subs, val => subs.flatMap fun s => slotLog st (fun l w => disp st f l w) s val

/-- All deliveries caused by `emit val` on node `n`. -/
def emitLog [Inhabited α] (st : St α) (fuel : Nat) (n : Nat) (val : Res α) : Log α :=
  disp st fuel (subsOf st n) val

/-- A directly constructed node: `new Observable()`. -/
def freshNode : Node α := ⟨[], none, none, none, false⟩

/-- Append one subscriber id to the list of a node record. -/
def pushSub (nd : Node α) (j : Nat) : Node α :=
  { nd with subscribers := nd.subscribers ++ [j] }

/-- `subscribe(onEmit, onError)` on node `p`: create a child node with
the two handlers and a `_nextErr`, set its publisher to `p`, and push it
onto the subscribers of `p`.  The child id is the previous heap size. -/
def subscribeSt (st : St α) (p : Nat) (hE hErr : Option (Handler α)) : St α :=
  match st.nodes[p]? with
  | none => st
  | some pnd =>
    ⟨(st.nodes.set p (pushSub pnd st.nodes.length)) ++ [⟨[], some p, hE, hErr, true⟩]⟩

/-- `Array.prototype.indexOf`: index of the first occurrence, `-1` if absent. -/
def jsIndexOf : List Nat → Nat → Int
  | [], _ => -1
  | x :: xs, a =>
    if x = a then 0
    else if jsIndexOf xs a < 0 then -1 else jsIndexOf xs a + 1

/-- The start position actually used by `Array.prototype.splice`: a
negative start counts from the end, clamped at 0. -/
def jsStart (len : Nat) (i : Int) : Nat :=
  if i < 0 then ((len : Int) + i).toNat else i.toNat

/-- `Array.prototype.splice(i, 1)`: delete one element at the effective
start position; `splice(-1, 1)` deletes the last element. -/
def jsSplice1 (l : List β) (i : Int) : List β :=
  l.take (jsStart l.length i) ++ l.drop (jsStart l.length i + 1)

/-- `unsubscribe()` on node `n`:
`publisher && publisher.subscribers.splice(publisher.subscribers.indexOf(this), 1)`. -/
def unsubscribeSt (st : St α) (n : Nat) : St α :=
  match st.nodes[n]? with
  | none => st
  | some nd =>
    match nd.publisher with
    | none => st
    | some p =>
      match st.nodes[p]? with
      | none => st
      | some pnd =>
        ⟨st.nodes.set p
          { pnd with subscribers := jsSplice1 pnd.subscribers (jsIndexOf pnd.subscribers n) }⟩

/-- `Observable.merge(iterable)`: allocate the merged node with a plain
constructor, then run the executor, which drains the source list once
and calls `source.subscribe(emit, onError)` on each source in order;
`emit` is the bound emit of the merged node and `onError` re-emits the
reason as a rejected future into it. -/
def mergeSt (st : St α) (srcs : List Nat) : St α :=
  let k := st.nodes.length
  srcs.foldl (fun acc s => subscribeSt acc s (some (.emitTo k)) (some (.rejectTo k)))
    ⟨st.nodes ++ [freshNode]⟩

/-- The public operations.  `emit` carries the fuel used to run its
dispatch chains to quiescence. -/
inductive Op (α : Type) where
  | node : Op α
  | subscribe : Nat → Option (Handler α) → Option (Handler α) → Op α
  | unsubscribe : Nat → Op α
  | emit : Nat → Nat → Res α → Op α
  | merge : List Nat → Op α

/-- Apply one operation: the new state and the deliveries it caused. -/
def applyOp [Inhabited α] (st : St α) : Op α → St α × Log α
  | .node => (⟨st.nodes ++ [freshNode]⟩, [])
  | .subscribe p hE hErr => (subscribeSt st p hE hErr, [])
  | .unsubscribe n => (unsubscribeSt st n, [])
  | .emit fuel n v => (st, emitLog st fuel n v)
  | .merge srcs => (mergeSt st srcs, [])

/-- Run a list of operations from a state, concatenating the logs. -/
def runOps [Inhabited α] (st : St α) : List (Op α) → St α × Log α
  | [] => (st, [])
  | op :: rest =>
    let p := applyOp st op
    let q := runOps p.1 rest
    (q.1, p.2 ++ q.2)

/-- Total number of occurrences of id `j` across all subscribers lists. -/
def countSubs (st : St α) (j : Nat) : Nat :=
  (st.nodes.map fun nd => nd.subscribers.count j).sum

/-! ### States with only pure handlers -/

/-- A handler slot that is absent or a pure user transform (no bound
emit of another node inside). -/
def pureHOpt : Option (Handler α) → Bool
  | none => true
  | some (.fn _) => true
  | some (.emitTo _) => false
  | some (.rejectTo _) => false

/-- Every handler of every node is absent or a pure transform. -/
def pureSt (st : St α) : Prop :=
  ∀ nd ∈ st.nodes, pureHOpt nd.onEmit ∧ pureHOpt nd.onError

/-- Every subscriber id strictly exceeds the id of the node whose list
it belongs to (true in every state reachable by the public operations,
since `subscribe` always allocates a fresh id). -/
def subsGtSt (st : St α) : Prop :=
  ∀ i, (h : i < st.nodes.length) → ∀ j ∈ st.nodes[i].subscribers, i < j

/-- The structural invariants of claim C8, plus the two auxiliary facts
needed to preserve them: all ids stored in subscribers lists are in
range, a subscriber id always exceeds the id of the node whose list it
is in (fresh allocation), every id occurs at most once across all
subscribers lists, and `publisher` is present exactly on nodes carrying
a `_nextErr`, i.e. exactly on nodes produced by `subscribe`. -/
structure Inv (st : St α) : Prop where
  valid : ∀ (i : Nat) (nd : Node α), st.nodes[i]? = some nd →
    ∀ j ∈ nd.subscribers, j < st.nodes.length
  incr : ∀ (i : Nat) (nd : Node α), st.nodes[i]? = some nd →
    ∀ j ∈ nd.subscribers, i < j
  once : ∀ j, countSubs st j ≤ 1
  pubIff : ∀ nd ∈ st.nodes, nd.publisher.isSome = nd.hasNextErr


/-! ### Concrete scenario states used by the claims -/

/-- C1 scenario: root 0 with subscriber A = 1 (pass through transform)
and B = 2 (transform returning a never settling future), and children
A1 = 3 under A and B1 = 4 under B. -/
def stC1 : St Nat :=
  (runOps (⟨[]⟩ : St Nat)
    [.node,
     .subscribe 0 (some (.fn Res.ok)) none,
     .subscribe 0 (some (.fn fun _ => Res.pending)) none,
     .subscribe 1 none none,
     .subscribe 2 none none]).1

/-- C3 witness scenario: root 0, subscriber 1 whose transform always
throws with reason `"x"`, and node 2 subscribed on 1 with an error
handler that returns the reason as a value. -/
def stC3 : St String :=
  (runOps (⟨[]⟩ : St String)
    [.node,
     .subscribe 0 (some (.fn fun _ => Res.err "x")) none,
     .subscribe 1 none (some (.fn Res.ok))]).1

/-- C4 witness scenario: root 0, subscriber 1 with no handlers, its
child 2 with no handlers. -/
def stC4 : St Nat :=
  (runOps (⟨[]⟩ : St Nat)
    [.node, .subscribe 0 none none, .subscribe 1 none none]).1

/-- C5 witness scenario: root 0, child 1, grandchild 2. -/
def stC5 : St Nat :=
  (runOps (⟨[]⟩ : St Nat)
    [.node, .subscribe 0 none none, .subscribe 1 none none]).1

/-- C6 witness scenario: root 0 with two recording subscribers 1, 2. -/
def stC6 : St Nat :=
  (runOps (⟨[]⟩ : St Nat)
    [.node, .subscribe 0 none none, .subscribe 0 none none]).1

/-- C7 scenario: two roots 0 and 1, a merge of both (merged node 2 with
bridges 3 on source 0 and 4 on source 1), a subscriber 5 on the merged
node, then a value into each source and a failure into the first. -/
def opsC7 : List (Op Nat) :=
  [.node, .node, .merge [0, 1], .subscribe 2 none none,
   .emit 3 0 (.ok 10), .emit 3 1 (.ok 20), .emit 3 0 (.err 7)]

/-- C7 witness scenario: the state after the construction prefix of
`opsC7` (roots 0 and 1, merged node 2 with bridges 3 and 4, handlerless
subscriber 5 on the merged node), before any emission. -/
def stC7 : St Nat :=
  (runOps (⟨[]⟩ : St Nat) [.node, .node, .merge [0, 1], .subscribe 2 none none]).1

/-- C10 witness scenario: two fresh root nodes. -/
def stC10 : St Nat := (runOps (⟨[]⟩ : St Nat) [.node, .node]).1

/-! ### Basic lemmas about the dispatch interpreter -/

theorem disp_nil [Inhabited α] (st : St α) (f : Nat) (val : Res α) :
    disp st f [] val = [] := by
  cases f <;> rfl

theorem disp_succ [Inhabited α] (st : St α) (f : Nat) (subs : List Nat) (val : Res α) :
    disp st (f + 1) subs val
      = subs.flatMap fun s => slotLog st (fun l w => disp st f l w) s val := rfl

theorem disp_cons [Inhabited α] (st : St α) (f : Nat) (s : Nat) (rest : List Nat)
    (val : Res α) :
    disp st (f + 1) (s :: rest) val
      = slotLog st (fun l w => disp st f l w) s val ++ disp st (f + 1) rest val := by
  simp [disp_succ]

theorem mem_disp_succ [Inhabited α] {st : St α} {f : Nat} {subs : List Nat}
    {val : Res α} {e : Nat × Res α} :
    e ∈ disp st (f + 1) subs val
      ↔ ∃ s ∈ subs, e ∈ slotLog st (fun l w => disp st f l w) s val := by
  simp [disp_succ]

theorem slot_mem_disp [Inhabited α] {st : St α} {f : Nat} {subs : List Nat}
    {val : Res α} {e : Nat × Res α} {s : Nat} (hs : s ∈ subs)
    (he : e ∈ slotLog st (fun l w => disp st f l w) s val) :
    e ∈ disp st (f + 1) subs val :=
  mem_disp_succ.mpr ⟨s, hs, he⟩

theorem slotLog_none [Inhabited α] {st : St α} {s : Nat}
    (hnd : st.nodes[s]? = none) (dispF : List Nat → Res α → Log α) (val : Res α) :
    slotLog st dispF s val = [] := by
  unfold slotLog; rw [hnd]

theorem slotLog_eq [Inhabited α] {st : St α} {s : Nat} {nd : Node α}
    (hnd : st.nodes[s]? = some nd) (dispF : List Nat → Res α → Log α) (val : Res α) :
    slotLog st dispF s val =
      (match (stage1 nd val).2 with
       | some (m, w) => dispF (subsOf st m) w
       | none => []) ++
      (match (stage1 nd val).1 with
       | .ok v => (s, Res.ok v) :: dispF nd.subscribers (.ok v)
       | .err r => if nd.hasNextErr then (s, Res.err r) :: dispF nd.subscribers (.err r) else []
       | .pending => []) := by
  unfold slotLog; rw [hnd]

/-- Every delivery target is either directly in the dispatched list or a
member of the subscribers list of some node of the state. -/
theorem disp_origin [Inhabited α] {st : St α} :
    ∀ {f : Nat} {subs : List Nat} {val : Res α} {e : Nat × Res α},
      e ∈ disp st f subs val →
      e.1 ∈ subs ∨ ∃ nd ∈ st.nodes, e.1 ∈ nd.subscribers := by
  intro f
  induction f with
  | zero => intro subs val e he; simp [disp] at he
  | succ f ih =>
    intro subs val e he
    rcases mem_disp_succ.mp he with ⟨s, hs, hslot⟩
    unfold slotLog at hslot
    cases hnd : st.nodes[s]? with
    | none => rw [hnd] at hslot; simp at hslot
    | some nd =>
      rw [hnd] at hslot
      simp only [List.mem_append] at hslot
      have hndmem : nd ∈ st.nodes := List.getElem?_mem hnd
      rcases hslot with heff | hst2
      · rcases hm : (stage1 nd val).2 with _ | ⟨m, w⟩
        · rw [hm] at heff; simp at heff
        · rw [hm] at heff
          rcases ih heff with hin | hex
          · unfold subsOf at hin
            cases hmn : st.nodes[m]? with
            | none => rw [hmn] at hin; simp at hin
            | some mnd =>
              rw [hmn] at hin
              exact Or.inr ⟨mnd, List.getElem?_mem hmn, hin⟩
          · exact Or.inr hex
      · rcases hr : (stage1 nd val).1 with v | r | _
        · rw [hr] at hst2
          rcases List.mem_cons.mp hst2 with he1 | hrec
          · left; rw [he1]; exact hs
          · rcases ih hrec with hin | hex
            · exact Or.inr ⟨nd, hndmem, hin⟩
            · exact Or.inr hex
        · rw [hr] at hst2
          by_cases hne : nd.hasNextErr
          · simp only [hne, if_true] at hst2
            rcases List.mem_cons.mp hst2 with he1 | hrec
            · left; rw [he1]; exact hs
            · rcases ih hrec with hin | hex
              · exact Or.inr ⟨nd, hndmem, hin⟩
              · exact Or.inr hex
          · simp [hne] at hst2
        · rw [hr] at hst2; simp at hst2

theorem stage1_eff_none [Inhabited α] {nd : Node α}
    (hE : pureHOpt nd.onEmit) (hErr : pureHOpt nd.onError) (val : Res α) :
    (stage1 nd val).2 = none := by
  rcases val with v | r | _
  · cases h : nd.onEmit with
    | none => simp [stage1, h]
    | some hh =>
      rw [h] at hE
      cases hh with
      | fn f => simp [stage1, h, applyH]
      | emitTo m => simp [pureHOpt] at hE
      | rejectTo m => simp [pureHOpt] at hE
  · cases h : nd.onError with
    | none => simp [stage1, h]
    | some hh =>
      rw [h] at hErr
      cases hh with
      | fn f => simp [stage1, h, applyH]
      | emitTo m => simp [pureHOpt] at hErr
      | rejectTo m => simp [pureHOpt] at hErr
  · simp [stage1]

/-- In a pure state whose subscriber ids always grow, dispatching to a
list of ids all above `m` only ever delivers to ids above `m`. -/
theorem disp_gt [Inhabited α] {st : St α} (hpure : pureSt st) (hgt : subsGtSt st) :
    ∀ {f : Nat} {subs : List Nat} {val : Res α} {m : Nat},
      (∀ j ∈ subs, m < j) → ∀ e ∈ disp st f subs val, m < e.1 := by
  intro f
  induction f with
  | zero => intro subs val m _ e he; simp [disp] at he
  | succ f ih =>
    intro subs val m hsubs e he
    rcases mem_disp_succ.mp he with ⟨s, hs, hslot⟩
    cases hnd : st.nodes[s]? with
    | none => rw [slotLog_none hnd] at hslot; simp at hslot
    | some nd =>
      rcases List.getElem?_eq_some_iff.mp hnd with ⟨hlen, hget⟩
      have hpnd := hpure nd (List.getElem?_mem hnd)
      rw [slotLog_eq hnd, stage1_eff_none hpnd.1 hpnd.2 val] at hslot
      simp only [List.nil_append] at hslot
      have hrec : ∀ e ∈ disp st f nd.subscribers ((stage1 nd val).1), m < e.1 := by
        intro e' he'
        have hsgt : ∀ j ∈ nd.subscribers, s < j := by
          intro j hj; exact hgt s hlen j (by rw [hget]; exact hj)
        exact Nat.lt_trans (hsubs s hs) (ih hsgt e' he')
      rcases hr : (stage1 nd val).1 with v | r | _
      · rw [hr] at hslot
        rcases List.mem_cons.mp hslot with he1 | hrecm
        · rw [he1]; exact hsubs s hs
        · rw [hr] at hrec; exact hrec e hrecm
      · rw [hr] at hslot
        by_cases hne : nd.hasNextErr
        · simp only [hne, if_true] at hslot
          rcases List.mem_cons.mp hslot with he1 | hrecm
          · rw [he1]; exact hsubs s hs
          · rw [hr] at hrec; exact hrec e hrecm
        · simp [hne] at hslot
      · rw [hr] at hslot; simp at hslot

/-- In a pure, id increasing state where `c` occurs in no subscribers
list except possibly that of node `n`, a dispatch that starts strictly
above some `m ≥ n` on a list not containing `c` never delivers to `c`. -/
theorem disp_avoid [Inhabited α] {st : St α} {c n : Nat}
    (hpure : pureSt st) (hgt : subsGtSt st)
    (honly : ∀ i, (h : i < st.nodes.length) → c ∈ st.nodes[i].subscribers → i = n) :
    ∀ {f : Nat} {subs : List Nat} {val : Res α} {m : Nat},
      n ≤ m → (∀ j ∈ subs, m < j) → c ∉ subs →
      ∀ e ∈ disp st f subs val, e.1 ≠ c := by
  intro f
  induction f with
  | zero => intro subs val m _ _ _ e he; simp [disp] at he
  | succ f ih =>
    intro subs val m hnm hsubs hcsubs e he
    rcases mem_disp_succ.mp he with ⟨s, hs, hslot⟩
    cases hnd : st.nodes[s]? with
    | none => rw [slotLog_none hnd] at hslot; simp at hslot
    | some nd =>
      rcases List.getElem?_eq_some_iff.mp hnd with ⟨hlen, hget⟩
      have hpnd := hpure nd (List.getElem?_mem hnd)
      rw [slotLog_eq hnd, stage1_eff_none hpnd.1 hpnd.2 val] at hslot
      simp only [List.nil_append] at hslot
      have hsc : s ≠ c := fun h => hcsubs (h ▸ hs)
      have hrec : ∀ e ∈ disp st f nd.subscribers ((stage1 nd val).1), e.1 ≠ c := by
        intro e' he'
        have hsgt : ∀ j ∈ nd.subscribers, s < j := by
          intro j hj; exact hgt s hlen j (by rw [hget]; exact hj)
        have hcn : c ∉ nd.subscribers := by
          intro hcmem
          have := honly s hlen (by rw [hget]; exact hcmem)
          exact absurd (this ▸ hsubs s hs) (Nat.not_lt.mpr (this ▸ hnm))
        exact ih (Nat.le_of_lt (Nat.lt_of_le_of_lt hnm (hsubs s hs))) hsgt hcn e' he'
      rcases hr : (stage1 nd val).1 with v | r | _
      · rw [hr] at hslot
        rcases List.mem_cons.mp hslot with he1 | hrecm
        · rw [he1]; exact hsc
        · rw [hr] at hrec; exact hrec e hrecm
      · rw [hr] at hslot
        by_cases hne : nd.hasNextErr
        · simp only [hne, if_true] at hslot
          rcases List.mem_cons.mp hslot with he1 | hrecm
          · rw [he1]; exact hsc
          · rw [hr] at hrec; exact hrec e hrecm
        · simp [hne] at hslot
      · rw [hr] at hslot; simp at hslot

/-! ### Counting occurrences across subscribers lists -/

theorem map_sum_set (l : List β) (i : Nat) (x : β) (f : β → Nat) (h : i < l.length) :
    ((l.set i x).map f).sum + f l[i] = (l.map f).sum + f x := by
  induction l generalizing i with
  | nil => simp at h
  | cons a l ih =>
    cases i with
    | zero => simp; omega
    | succ i =>
      simp only [List.set_cons_succ, List.map_cons, List.sum_cons, List.getElem_cons_succ]
      have := ih i (by simpa using h)
      omega

theorem sum_map_eq_zero {l : List β} {f : β → Nat} (h : ∀ x ∈ l, f x = 0) :
    (l.map f).sum = 0 := by
  induction l with
  | nil => rfl
  | cons a l ih =>
    simp [h a (List.mem_cons_self a l), ih fun x hx => h x (List.mem_cons_of_mem a hx)]

theorem count_le_countSubs {st : St α} {nd : Node α} (h : nd ∈ st.nodes) (j : Nat) :
    nd.subscribers.count j ≤ countSubs st j :=
  List.le_sum_of_mem (List.mem_map_of_mem _ h)

theorem one_le_countSubs {st : St α} {nd : Node α} (h : nd ∈ st.nodes) {j : Nat}
    (hj : j ∈ nd.subscribers) : 1 ≤ countSubs st j :=
  le_trans (List.count_pos_iff.mpr hj) (count_le_countSubs h j)

theorem countSubs_eq_zero {st : St α} {j : Nat}
    (h : ∀ nd ∈ st.nodes, j ∉ nd.subscribers) : countSubs st j = 0 :=
  sum_map_eq_zero fun nd hnd => List.count_eq_zero.mpr (h nd hnd)

/-! ### Unfolding the state transformers -/

theorem subscribeSt_of_get {st : St α} {p : Nat} {pnd : Node α}
    (hp : st.nodes[p]? = some pnd) (hE hErr : Option (Handler α)) :
    subscribeSt st p hE hErr
      = ⟨(st.nodes.set p (pushSub pnd st.nodes.length)) ++ [⟨[], some p, hE, hErr, true⟩]⟩ := by
  unfold subscribeSt; rw [hp]

theorem subscribeSt_of_none {st : St α} {p : Nat}
    (hp : st.nodes[p]? = none) (hE hErr : Option (Handler α)) :
    subscribeSt st p hE hErr = st := by
  unfold subscribeSt; rw [hp]

theorem subscribeSt_length {st : St α} {p : Nat} {pnd : Node α}
    (hp : st.nodes[p]? = some pnd) (hE hErr : Option (Handler α)) :
    (subscribeSt st p hE hErr).nodes.length = st.nodes.length + 1 := by
  rw [subscribeSt_of_get hp]; simp

theorem subscribeSt_get_pub {st : St α} {p : Nat} {pnd : Node α}
    (hp : st.nodes[p]? = some pnd) (hE hErr : Option (Handler α)) :
    (subscribeSt st p hE hErr).nodes[p]? = some (pushSub pnd st.nodes.length) := by
  rw [subscribeSt_of_get hp]
  have hpl : p < st.nodes.length := (List.getElem?_eq_some_iff.mp hp).1
  rw [List.getElem?_append_left (by simpa using hpl)]
  simp [hpl]

theorem subscribeSt_get_child {st : St α} {p : Nat} {pnd : Node α}
    (hp : st.nodes[p]? = some pnd) (hE hErr : Option (Handler α)) :
    (subscribeSt st p hE hErr).nodes[st.nodes.length]?
      = some ⟨[], some p, hE, hErr, true⟩ := by
  rw [subscribeSt_of_get hp]
  rw [List.getElem?_append_right (by simp)]
  simp

theorem subscribeSt_get_other {st : St α} {p : Nat} {pnd : Node α}
    (hp : st.nodes[p]? = some pnd) (hE hErr : Option (Handler α)) {i : Nat}
    (hip : i ≠ p) (hiL : i < st.nodes.length) :
    (subscribeSt st p hE hErr).nodes[i]? = st.nodes[i]? := by
  rw [subscribeSt_of_get hp]
  rw [List.getElem?_append_left (by simpa using hiL)]
  exact List.getElem?_set_ne (fun h => hip h.symm)

theorem unsubscribeSt_of_get {st : St α} {n p : Nat} {nd pnd : Node α}
    (hn : st.nodes[n]? = some nd) (hpub : nd.publisher = some p)
    (hp : st.nodes[p]? = some pnd) :
    unsubscribeSt st n
      = ⟨st.nodes.set p
          { pnd with subscribers := jsSplice1 pnd.subscribers (jsIndexOf pnd.subscribers n) }⟩ := by
  unfold unsubscribeSt; simp only [hn, hpub, hp]

theorem jsSplice1_sublist (l : List β) (i : Int) : (jsSplice1 l i).Sublist l := by
  unfold jsSplice1
  set s : Nat := jsStart l.length i with hs
  calc (l.take s ++ l.drop (s + 1)).Sublist (l.take s ++ l.drop s) := by
        exact List.Sublist.append_left (List.drop_sublist_drop_left l (Nat.le_succ s)) _
    _ = l := List.take_append_drop s l

theorem jsIndexOf_nonneg {l : List Nat} {c : Nat} (h : c ∈ l) : 0 ≤ jsIndexOf l c := by
  induction l with
  | nil => simp at h
  | cons x xs ih =>
    unfold jsIndexOf
    by_cases hx : x = c
    · rw [if_pos hx]
    · rw [if_neg hx]
      rcases List.mem_cons.mp h with h1 | h2
      · exact absurd h1.symm hx
      · have := ih h2
        rw [if_neg (by omega)]
        omega

theorem jsSplice1_cons_succ (x : β) (xs : List β) (r : Int) (hr : 0 ≤ r) :
    jsSplice1 (x :: xs) (r + 1) = x :: jsSplice1 xs r := by
  unfold jsSplice1 jsStart
  rw [if_neg (by omega), if_neg (by omega)]
  have h1 : (r + 1).toNat = r.toNat + 1 := by omega
  rw [h1]
  simp

/-- When the element is present, `splice(indexOf(x), 1)` removes exactly
the first occurrence. -/
theorem jsSplice1_indexOf_erase {l : List Nat} {c : Nat} (h : c ∈ l) :
    jsSplice1 l (jsIndexOf l c) = l.erase c := by
  induction l with
  | nil => simp at h
  | cons x xs ih =>
    by_cases hx : x = c
    · subst hx
      have hidx : jsIndexOf (x :: xs) x = 0 := by unfold jsIndexOf; rw [if_pos rfl]
      have hsp : jsSplice1 (x :: xs) 0 = xs := by unfold jsSplice1 jsStart; simp
      rw [hidx, hsp, List.erase_cons_head]
    · have hmem : c ∈ xs := by
        rcases List.mem_cons.mp h with h1 | h2
        · exact absurd h1.symm hx
        · exact h2
      have hnn : 0 ≤ jsIndexOf xs c := jsIndexOf_nonneg hmem
      have hidx : jsIndexOf (x :: xs) c = jsIndexOf xs c + 1 := by
        rw [jsIndexOf, if_neg hx, if_neg (by omega)]
      rw [hidx, jsSplice1_cons_succ x xs _ hnn, ih hmem,
        List.erase_cons_tail (by simpa using hx)]

/-- When the element is absent and the list nonempty,
`splice(indexOf(x), 1)` silently deletes the LAST element: `indexOf`
returns `-1` and a negative splice start counts from the end. -/
theorem jsIndexOf_of_not_mem {l : List Nat} {c : Nat} (h : c ∉ l) :
    jsIndexOf l c = -1 := by
  induction l with
  | nil => rfl
  | cons x xs ih =>
    have hx : x ≠ c := fun hh => h (hh ▸ List.mem_cons_self x xs)
    have hxs : c ∉ xs := fun hh => h (List.mem_cons_of_mem x hh)
    unfold jsIndexOf
    rw [if_neg hx, ih hxs, if_pos (by omega)]

theorem jsSplice1_neg_one (l : List β) :
    jsSplice1 l (-1) = l.take (l.length - 1) := by
  unfold jsSplice1 jsStart
  rw [if_pos (by omega)]
  have h1 : ((l.length : Int) + -1).toNat = l.length - 1 := by omega
  rw [h1, List.drop_eq_nil_of_le (by omega), List.append_nil]

/-! ### Structural invariants of reachable states -/

theorem Inv.subsGt {st : St α} (h : Inv st) : subsGtSt st := by
  intro i hi j hj
  exact h.incr i _ (List.getElem?_eq_some_iff.mpr ⟨hi, rfl⟩) j hj

theorem inv_nil : Inv (⟨[]⟩ : St α) := by
  refine ⟨?_, ?_, ?_, ?_⟩
  · intro i nd hie; simp at hie
  · intro i nd hie; simp at hie
  · intro j; simp [countSubs]
  · intro nd h; simp at h

theorem countSubs_append_fresh (st : St α) (j : Nat) :
    countSubs (⟨st.nodes ++ [freshNode]⟩ : St α) j = countSubs st j := by
  simp [countSubs, freshNode]

theorem inv_pushFresh {st : St α} (h : Inv st) : Inv (⟨st.nodes ++ [freshNode]⟩ : St α) := by
  have hget : ∀ (i : Nat) (nd : Node α), (st.nodes ++ [freshNode])[i]? = some nd →
      st.nodes[i]? = some nd ∨ nd = freshNode := by
    intro i nd hie
    rcases Nat.lt_or_ge i st.nodes.length with hlt | hge
    · rw [List.getElem?_append_left hlt] at hie; exact Or.inl hie
    · rw [List.getElem?_append_right hge] at hie
      have h0 : i - st.nodes.length = 0 := by
        have := (List.getElem?_eq_some_iff.mp hie).1
        simp at this
        omega
      rw [h0] at hie
      simp at hie
      exact Or.inr hie.symm
  refine ⟨?_, ?_, ?_, ?_⟩
  · intro i nd hie j hj
    simp only [St.nodes] at hie
    rcases hget i nd hie with hold | hfresh
    · have := h.valid i nd hold j hj
      simp only [List.length_append, List.length_cons, List.length_nil]
      omega
    · subst hfresh; simp [freshNode] at hj
  · intro i nd hie j hj
    simp only [St.nodes] at hie
    rcases hget i nd hie with hold | hfresh
    · exact h.incr i nd hold j hj
    · subst hfresh; simp [freshNode] at hj
  · intro j; rw [countSubs_append_fresh]; exact h.once j
  · intro nd hnd
    simp only [St.nodes] at hnd
    rcases List.mem_append.mp hnd with hold | hnew
    · exact h.pubIff nd hold
    · simp at hnew; subst hnew; rfl

theorem inv_subscribeSt {st : St α} (h : Inv st) (p : Nat)
    (hE hErr : Option (Handler α)) : Inv (subscribeSt st p hE hErr) := by
  cases hp : st.nodes[p]? with
  | none => rw [subscribeSt_of_none hp]; exact h
  | some pnd =>
    have hpl : p < st.nodes.length := (List.getElem?_eq_some_iff.mp hp).1
    have hpget : st.nodes[p] = pnd := (List.getElem?_eq_some_iff.mp hp).2
    have hlen : (subscribeSt st p hE hErr).nodes.length = st.nodes.length + 1 :=
      subscribeSt_length hp hE hErr
    have hget : ∀ i, (subscribeSt st p hE hErr).nodes[i]? =
        if i = p then some (pushSub pnd st.nodes.length)
        else if i = st.nodes.length then some ⟨[], some p, hE, hErr, true⟩
        else st.nodes[i]? := by
      intro i
      by_cases hip : i = p
      · rw [if_pos hip, hip]; exact subscribeSt_get_pub hp hE hErr
      · rw [if_neg hip]
        by_cases hiL : i = st.nodes.length
        · rw [if_pos hiL, hiL]; exact subscribeSt_get_child hp hE hErr
        · rw [if_neg hiL]
          rcases Nat.lt_or_ge i st.nodes.length with hlt | hge
          · exact subscribeSt_get_other hp hE hErr hip hlt
          · have h1 : (subscribeSt st p hE hErr).nodes[i]? = none :=
              List.getElem?_eq_none (by omega)
            have h2 : st.nodes[i]? = none := List.getElem?_eq_none (by omega)
            rw [h1, h2]
    refine ⟨?_, ?_, ?_, ?_⟩
    · intro i nd hie j hj
      rw [hget i] at hie
      rw [hlen]
      by_cases hip : i = p
      · rw [if_pos hip] at hie
        have hnd : nd = pushSub pnd st.nodes.length := (Option.some_inj.mp hie).symm
        subst hnd
        simp only [pushSub, List.mem_append] at hj
        rcases hj with hold | hnew
        · have := h.valid p pnd hp j hold; omega
        · simp at hnew; omega
      · rw [if_neg hip] at hie
        by_cases hiL : i = st.nodes.length
        · rw [if_pos hiL] at hie
          have hnd : nd = ⟨[], some p, hE, hErr, true⟩ := (Option.some_inj.mp hie).symm
          subst hnd; simp at hj
        · rw [if_neg hiL] at hie
          have := h.valid i nd hie j hj; omega
    · intro i nd hie j hj
      rw [hget i] at hie
      by_cases hip : i = p
      · rw [if_pos hip] at hie
        have hnd : nd = pushSub pnd st.nodes.length := (Option.some_inj.mp hie).symm
        subst hnd
        simp only [pushSub, List.mem_append] at hj
        rcases hj with hold | hnew
        · exact hip ▸ h.incr p pnd hp j hold
        · simp at hnew; omega
      · rw [if_neg hip] at hie
        by_cases hiL : i = st.nodes.length
        · rw [if_pos hiL] at hie
          have hnd : nd = ⟨[], some p, hE, hErr, true⟩ := (Option.some_inj.mp hie).symm
          subst hnd; simp at hj
        · rw [if_neg hiL] at hie
          exact h.incr i nd hie j hj
    · intro j
      have heq := map_sum_set st.nodes p (pushSub pnd st.nodes.length)
        (fun nd => nd.subscribers.count j) hpl
      rw [hpget] at heq
      have hx : (pushSub pnd st.nodes.length).subscribers.count j
          = pnd.subscribers.count j + [st.nodes.length].count j := by
        simp [pushSub]
      rw [hx] at heq
      have hcs : countSubs (subscribeSt st p hE hErr) j
          = ((st.nodes.set p (pushSub pnd st.nodes.length)).map
              (fun nd => nd.subscribers.count j)).sum := by
        rw [subscribeSt_of_get hp]
        unfold countSubs
        rw [List.map_append, List.sum_append]
        simp
      have hC : (st.nodes.map fun nd => nd.subscribers.count j).sum = countSubs st j := rfl
      have honce := h.once j
      by_cases hjL : j = st.nodes.length
      · subst hjL
        have hz : countSubs st st.nodes.length = 0 := by
          apply countSubs_eq_zero
          intro nd hnd hmem
          rcases List.mem_iff_getElem?.mp hnd with ⟨i, hie⟩
          exact absurd (h.valid i nd hie _ hmem) (Nat.lt_irrefl _)
        have hone : List.count st.nodes.length [st.nodes.length] = 1 := by simp
        omega
      · have hz0 : List.count j [st.nodes.length] = 0 := by
          rw [List.count_singleton]
          simp only [beq_iff_eq]
          rw [if_neg fun hh => hjL hh.symm]
        omega
    · intro nd hnd
      rcases List.mem_iff_getElem?.mp hnd with ⟨i, hie⟩
      rw [hget i] at hie
      by_cases hip : i = p
      · rw [if_pos hip] at hie
        have hnd2 : nd = pushSub pnd st.nodes.length := (Option.some_inj.mp hie).symm
        subst hnd2
        exact h.pubIff pnd (List.getElem?_mem hp)
      · rw [if_neg hip] at hie
        by_cases hiL : i = st.nodes.length
        · rw [if_pos hiL] at hie
          have hnd2 : nd = ⟨[], some p, hE, hErr, true⟩ := (Option.some_inj.mp hie).symm
          subst hnd2; rfl
        · rw [if_neg hiL] at hie
          exact h.pubIff nd (List.getElem?_mem hie)

theorem inv_unsubscribeSt {st : St α} (h : Inv st) (n : Nat) : Inv (unsubscribeSt st n) := by
  cases hn : st.nodes[n]? with
  | none => unfold unsubscribeSt; simp only [hn]; exact h
  | some nd =>
    cases hpub : nd.publisher with
    | none => unfold unsubscribeSt; simp only [hn, hpub]; exact h
    | some p =>
      cases hp : st.nodes[p]? with
      | none => unfold unsubscribeSt; simp only [hn, hpub, hp]; exact h
      | some pnd =>
        rw [unsubscribeSt_of_get hn hpub hp]
        have hsub : (jsSplice1 pnd.subscribers (jsIndexOf pnd.subscribers n)).Sublist
            pnd.subscribers := jsSplice1_sublist _ _
        have hpl : p < st.nodes.length := (List.getElem?_eq_some_iff.mp hp).1
        have hpget : st.nodes[p] = pnd := (List.getElem?_eq_some_iff.mp hp).2
        have hget : ∀ i, (⟨st.nodes.set p
              { pnd with subscribers := jsSplice1 pnd.subscribers (jsIndexOf pnd.subscribers n) }⟩
              : St α).nodes[i]? =
            if i = p then some { pnd with
              subscribers := jsSplice1 pnd.subscribers (jsIndexOf pnd.subscribers n) }
            else st.nodes[i]? := by
          intro i
          by_cases hip : i = p
          · rw [if_pos hip, hip]
            exact List.getElem?_set_self hpl
          · rw [if_neg hip]
            exact List.getElem?_set_ne fun hh => hip hh.symm
        refine ⟨?_, ?_, ?_, ?_⟩
        · intro i ind hie j hj
          rw [hget i] at hie
          simp only [St.nodes, List.length_set]
          by_cases hip : i = p
          · rw [if_pos hip] at hie
            have hi2 : ind = { pnd with
                subscribers := jsSplice1 pnd.subscribers (jsIndexOf pnd.subscribers n) } :=
              (Option.some_inj.mp hie).symm
            subst hi2
            exact h.valid p pnd hp j (hsub.subset hj)
          · rw [if_neg hip] at hie
            exact h.valid i ind hie j hj
        · intro i ind hie j hj
          rw [hget i] at hie
          by_cases hip : i = p
          · rw [if_pos hip] at hie
            have hi2 : ind = { pnd with
                subscribers := jsSplice1 pnd.subscribers (jsIndexOf pnd.subscribers n) } :=
              (Option.some_inj.mp hie).symm
            subst hi2
            exact hip ▸ h.incr p pnd hp j (hsub.subset hj)
          · rw [if_neg hip] at hie
            exact h.incr i ind hie j hj
        · intro j
          have heq := map_sum_set st.nodes p
            { pnd with subscribers := jsSplice1 pnd.subscribers (jsIndexOf pnd.subscribers n) }
            (fun nd => nd.subscribers.count j) hpl
          rw [hpget] at heq
          have hcnt := hsub.count_le j
          have hC : (st.nodes.map fun nd => nd.subscribers.count j).sum = countSubs st j := rfl
          have honce := h.once j
          have hD : countSubs (⟨st.nodes.set p
              { pnd with subscribers := jsSplice1 pnd.subscribers (jsIndexOf pnd.subscribers n) }⟩
              : St α) j
            = ((st.nodes.set p { pnd with
                subscribers := jsSplice1 pnd.subscribers (jsIndexOf pnd.subscribers n) }).map
                (fun nd => nd.subscribers.count j)).sum := rfl
          have hcc : ({ pnd with
              subscribers := jsSplice1 pnd.subscribers (jsIndexOf pnd.subscribers n) }
              : Node α).subscribers.count j
            = (jsSplice1 pnd.subscribers (jsIndexOf pnd.subscribers n)).count j := rfl
          omega
        · intro ind hind
          simp only [St.nodes] at hind
          rcases List.mem_or_eq_of_mem_set hind with hold | hnew
          · exact h.pubIff ind hold
          · subst hnew
            exact h.pubIff pnd (List.getElem?_mem hp)

theorem inv_mergeSt {st : St α} (h : Inv st) (srcs : List Nat) : Inv (mergeSt st srcs) := by
  unfold mergeSt
  have hfold : ∀ (l : List Nat) (acc : St α), Inv acc →
      Inv (l.foldl (fun acc s => subscribeSt acc s (some (.emitTo st.nodes.length))
        (some (.rejectTo st.nodes.length))) acc) := by
    intro l
    induction l with
    | nil => intro acc ha; exact ha
    | cons x rest ih => intro acc ha; exact ih _ (inv_subscribeSt ha x _ _)
  exact hfold srcs _ (inv_pushFresh h)

theorem inv_applyOp [Inhabited α] {st : St α} (h : Inv st) (op : Op α) :
    Inv ((applyOp st op).1) := by
  cases op with
  | node => exact inv_pushFresh h
  | subscribe p hE hErr => exact inv_subscribeSt h p hE hErr
  | unsubscribe n => exact inv_unsubscribeSt h n
  | emit fuel n v => exact h
  | merge srcs => exact inv_mergeSt h srcs

theorem inv_runOps [Inhabited α] {st : St α} (h : Inv st) (ops : List (Op α)) :
    Inv ((runOps st ops).1) := by
  induction ops generalizing st with
  | nil => exact h
  | cons op rest ih => exact ih (inv_applyOp h op)

/-! ### The claims -/

/-- C9: emit is fire and forget.  Applying an emit operation returns the
state unchanged, so every node record (subscribers, publisher, onEmit,
onError, nextErr flag) is exactly as before the call, for every node id
and every emitted value; and on a node whose subscribers list is empty
the emission produces no deliveries at all.  The source method body only
reads `this.subscribers` and builds promise chains: it has no assignment
and no return statement, which the embedding mirrors by `applyOp`
pairing the unchanged state with the delivery log and no result value. -/
theorem c9_emit_is_pure [Inhabited α] (st : St α) (fuel n : Nat) (v : Res α) :
    (applyOp st (.emit fuel n v)).1 = st ∧
    (subsOf st n = [] → (applyOp st (.emit fuel n v)).2 = []) := by
  constructor
  · rfl
  · intro h
    show emitLog st fuel n v = []
    unfold emitLog
    rw [h]
    exact disp_nil st fuel v

/-- Witness for C9 at a concrete input: a single fresh node with no
subscribers. -/
theorem c9_emit_is_pure_witness :
    (applyOp (⟨[freshNode]⟩ : St Nat) (.emit 5 0 (.ok 1))).1 = ⟨[freshNode]⟩ ∧
    (applyOp (⟨[freshNode]⟩ : St Nat) (.emit 5 0 (.ok 1))).2 = [] :=
  ⟨(c9_emit_is_pure (⟨[freshNode]⟩ : St Nat) 5 0 (.ok 1)).1,
   (c9_emit_is_pure (⟨[freshNode]⟩ : St Nat) 5 0 (.ok 1)).2 rfl⟩

/-- C2 is false on the code (code bug): with root 0 and children 1 and
2, the first `unsubscribe` of node 1 leaves the root subscribers list
`[2]`, but a second `unsubscribe` of the same node empties it, removing
the sibling 2 that was never unsubscribed: `indexOf` returns `-1` for
the already removed node and `splice(-1, 1)` deletes the last element.
The third conjunct confirms the part of the claim that does hold: on a
node with no publisher, `unsubscribe` changes nothing. -/
theorem c2_second_unsubscribe_removes_sibling :
    (subsOf ((runOps (⟨[]⟩ : St Nat)
        [.node, .subscribe 0 none none, .subscribe 0 none none, .unsubscribe 1]).1) 0
      = [2]) ∧
    (subsOf ((runOps (⟨[]⟩ : St Nat)
        [.node, .subscribe 0 none none, .subscribe 0 none none, .unsubscribe 1,
         .unsubscribe 1]).1) 0
      = []) ∧
    (unsubscribeSt (⟨[freshNode]⟩ : St Nat) 0 = ⟨[freshNode]⟩) := by
  refine ⟨?_, ?_, ?_⟩ <;> rfl

/-- C1: in the concrete scenario (root 0, subscriber A = 1 passing
values through, subscriber B = 2 returning a never settling future,
children A1 = 3 and B1 = 4), emitting 5 into the root delivers 5 to A
and to A1, and nothing else: in particular B and B1 never receive
anything, at any fuel, while the sibling branch through A is delivered
normally.  The third conjunct is the general independence fact: the
dispatch log of a subscriber list decomposes per subscriber, each
segment computed from the state, the subscriber and the emitted value
alone, so one subscriber failing or stalling cannot change the segments
of its siblings. -/
theorem c1_stalled_branch_is_isolated :
    (∀ f, emitLog stC1 (f + 2) 0 (.ok 5) = [(1, Res.ok 5), (3, Res.ok 5)]) ∧
    (∀ f e, e ∈ emitLog stC1 f 0 (.ok 5) → e.1 ≠ 2 ∧ e.1 ≠ 4) ∧
    (∀ (st : St Nat) (f s : Nat) (rest : List Nat) (val : Res Nat),
      disp st (f + 1) (s :: rest) val
        = slotLog st (fun l w => disp st f l w) s val ++ disp st (f + 1) rest val) := by
  have h3 : ∀ f, disp stC1 (f + 1) [3] (.ok 5) = [(3, Res.ok 5)] := by
    intro f
    rw [disp_cons, disp_nil,
      slotLog_eq (show stC1.nodes[3]? = some ⟨[], some 1, none, none, true⟩ from rfl)]
    simp [stage1, disp_nil]
  have h1 : ∀ f, slotLog stC1 (fun l w => disp stC1 f l w) 1 (.ok 5)
      = (1, Res.ok 5) :: disp stC1 f [3] (.ok 5) := by
    intro f
    rw [slotLog_eq (show stC1.nodes[1]?
      = some ⟨[3], some 0, some (.fn Res.ok), none, true⟩ from rfl)]
    simp [stage1, applyH]
  have h2 : ∀ f, slotLog stC1 (fun l w => disp stC1 f l w) 2 (.ok 5) = [] := by
    intro f
    rw [slotLog_eq (show stC1.nodes[2]?
      = some ⟨[4], some 0, some (.fn fun _ => Res.pending), none, true⟩ from rfl)]
    simp [stage1, applyH]
  have hsub : subsOf stC1 0 = [1, 2] := rfl
  refine ⟨?_, ?_, ?_⟩
  · intro f
    show disp stC1 (f + 2) (subsOf stC1 0) (.ok 5) = _
    rw [hsub, disp_cons, disp_cons, disp_nil, h1, h2, h3]
    simp
  · intro f e he
    match f with
    | 0 => simp [emitLog, disp] at he
    | f + 1 =>
      unfold emitLog at he
      rw [hsub, disp_cons, disp_cons, disp_nil, h1, h2] at he
      simp only [List.append_nil, List.nil_append] at he
      rcases List.mem_cons.mp he with he1 | hmem2
      · subst he1; exact ⟨by decide, by decide⟩
      · match f with
        | 0 => simp [disp] at hmem2
        | f + 1 =>
          rw [h3 f] at hmem2
          simp at hmem2
          subst hmem2; exact ⟨by decide, by decide⟩
  · intro st f s rest val
    exact disp_cons st f s rest val

/-- C3: a subscriber whose `onEmit` transform fails while processing a
value has the failure funneled through its own `nextErr` back into its
own emit (the delivery `(s, err r)` appears), and a child of that
subscriber carrying an `onError` handler observes the failure: the
delivery `(c, ok (g r))` also appears in the log of the same parent
emit. -/
theorem c3_transform_failure_reaches_grandchild [Inhabited α] (st : St α)
    (p s c : Nat) (pnd snd cnd : Node α) (tf g : α → Res α) (v r w : α) (fuel : Nat)
    (hp : st.nodes[p]? = some pnd) (hs : s ∈ pnd.subscribers)
    (hsn : st.nodes[s]? = some snd) (hE : snd.onEmit = some (.fn tf))
    (htf : tf v = .err r) (hnx : snd.hasNextErr = true)
    (hc : c ∈ snd.subscribers) (hcn : st.nodes[c]? = some cnd)
    (hcE : cnd.onError = some (.fn g)) (hg : g r = .ok w) :
    (s, Res.err r) ∈ emitLog st (fuel + 2) p (.ok v) ∧
    (c, Res.ok w) ∈ emitLog st (fuel + 2) p (.ok v) := by
  have hsub : subsOf st p = pnd.subscribers := by unfold subsOf; rw [hp]
  have hslots : slotLog st (fun l w2 => disp st (fuel + 1) l w2) s (.ok v)
      = (s, Res.err r) :: disp st (fuel + 1) snd.subscribers (.err r) := by
    rw [slotLog_eq hsn]
    simp only [stage1, hE, applyH, htf, hnx, if_true, List.nil_append]
  constructor
  · show _ ∈ disp st (fuel + 2) (subsOf st p) (.ok v)
    rw [hsub]
    apply slot_mem_disp hs
    rw [hslots]
    exact List.mem_cons_self _ _
  · show _ ∈ disp st (fuel + 2) (subsOf st p) (.ok v)
    rw [hsub]
    apply slot_mem_disp hs
    rw [hslots]
    apply List.mem_cons_of_mem
    apply slot_mem_disp hc
    rw [slotLog_eq hcn]
    simp only [stage1, hcE, applyH, hg, List.nil_append]
    exact List.mem_cons_self _ _

/-- Witness for C3: the concrete scenario of the spec, with the thrown
reason `"x"` observed by the grandchild error handler. -/
theorem c3_transform_failure_witness :
    (1, Res.err "x") ∈ emitLog stC3 2 0 (.ok "v") ∧
    (2, Res.ok "x") ∈ emitLog stC3 2 0 (.ok "v") :=
  c3_transform_failure_reaches_grandchild stC3 0 1 2
    ⟨[1], none, none, none, false⟩
    ⟨[2], some 0, some (.fn fun _ => Res.err "x"), none, true⟩
    ⟨[], some 1, none, some (.fn Res.ok), true⟩
    (fun _ => Res.err "x") Res.ok "v" "x" "x" 0
    rfl (by decide) rfl rfl rfl rfl (by decide) rfl rfl rfl

/-- C4: a failed value arriving at a subscriber with no `onError` is not
swallowed.  The absent handler passes the failure through unchanged, the
second chain stage feeds it to the subscriber `nextErr`, and that
closure re-emits it into the subscriber own emit: the full chain of the
subscriber equals `(s, err r)` followed by the dispatch of `err r` to
the subscriber own children.  Consequently the delivery `(s, err r)`
appears in the parent emit log, and a child with no `onError` of its own
receives the equivalent failed value `(c, err r)` in the same log. -/
theorem c4_absent_onError_passes_failure [Inhabited α] (st : St α)
    (p s c : Nat) (pnd snd cnd : Node α) (r : α) (fuel : Nat)
    (hp : st.nodes[p]? = some pnd) (hs : s ∈ pnd.subscribers)
    (hsn : st.nodes[s]? = some snd) (hErr : snd.onError = none)
    (hnx : snd.hasNextErr = true)
    (hc : c ∈ snd.subscribers) (hcn : st.nodes[c]? = some cnd)
    (hcErr : cnd.onError = none) (hcnx : cnd.hasNextErr = true) :
    (slotLog st (fun l w => disp st (fuel + 1) l w) s (.err r)
      = (s, Res.err r) :: disp st (fuel + 1) snd.subscribers (.err r)) ∧
    (s, Res.err r) ∈ emitLog st (fuel + 2) p (.err r) ∧
    (c, Res.err r) ∈ emitLog st (fuel + 2) p (.err r) := by
  have hsub : subsOf st p = pnd.subscribers := by unfold subsOf; rw [hp]
  have hslots : slotLog st (fun l w => disp st (fuel + 1) l w) s (.err r)
      = (s, Res.err r) :: disp st (fuel + 1) snd.subscribers (.err r) := by
    rw [slotLog_eq hsn]
    simp only [stage1, hErr, hnx, if_true, List.nil_append]
  refine ⟨hslots, ?_, ?_⟩
  · show _ ∈ disp st (fuel + 2) (subsOf st p) (.err r)
    rw [hsub]
    apply slot_mem_disp hs
    rw [hslots]
    exact List.mem_cons_self _ _
  · show _ ∈ disp st (fuel + 2) (subsOf st p) (.err r)
    rw [hsub]
    apply slot_mem_disp hs
    rw [hslots]
    apply List.mem_cons_of_mem
    apply slot_mem_disp hc
    rw [slotLog_eq hcn]
    simp only [stage1, hcErr, hcnx, if_true, List.nil_append]
    exact List.mem_cons_self _ _

/-- Witness for C4: root 0, handlerless subscriber 1, handlerless child
2; the failure 42 is re-emitted by 1 and received by 2. -/
theorem c4_absent_onError_witness :
    (slotLog stC4 (fun l w => disp stC4 1 l w) 1 (.err 42)
      = (1, Res.err 42) :: disp stC4 1 [2] (.err 42)) ∧
    (1, Res.err 42) ∈ emitLog stC4 2 0 (.err 42) ∧
    (2, Res.err 42) ∈ emitLog stC4 2 0 (.err 42) :=
  c4_absent_onError_passes_failure stC4 0 1 2
    ⟨[1], none, none, none, false⟩
    ⟨[2], some 0, none, none, true⟩
    ⟨[], some 1, none, none, true⟩
    42 0 rfl (by decide) rfl rfl rfl (by decide) rfl rfl rfl

/-- C5: for a child still present in the subscribers list of its
publisher, `unsubscribe` removes exactly the first occurrence of the
child (by identity) from that list, the child record itself is left
untouched, no later dispatch from any node ever delivers to the child
again (its handlers are never invoked, since handlers only run on
delivery), and the child stays live: a value emitted directly into the
child is still delivered to each of its own subscribers. -/
theorem c5_unsubscribe_detaches_child [Inhabited α] (st : St α)
    (p c : Nat) (pnd cnd : Node α)
    (hp : st.nodes[p]? = some pnd) (hcn : st.nodes[c]? = some cnd)
    (hpub : cnd.publisher = some p) (hmem : c ∈ pnd.subscribers)
    (honce : countSubs st c = 1) (hne : p ≠ c) :
    ((unsubscribeSt st c).nodes[p]?
      = some { pnd with subscribers := pnd.subscribers.erase c }) ∧
    ((unsubscribeSt st c).nodes[c]? = some cnd) ∧
    (∀ f n v e, e ∈ disp (unsubscribeSt st c) f (subsOf (unsubscribeSt st c) n) v →
      e.1 ≠ c) ∧
    (∀ (v : α) (f s : Nat) (snd : Node α), s ∈ cnd.subscribers →
      (unsubscribeSt st c).nodes[s]? = some snd → snd.onEmit = none →
      (s, Res.ok v) ∈ emitLog (unsubscribeSt st c) (f + 1) c (.ok v)) := by
  have hpl : p < st.nodes.length := (List.getElem?_eq_some_iff.mp hp).1
  have hpget : st.nodes[p] = pnd := (List.getElem?_eq_some_iff.mp hp).2
  have hstep : unsubscribeSt st c
      = ⟨st.nodes.set p { pnd with subscribers := pnd.subscribers.erase c }⟩ := by
    rw [unsubscribeSt_of_get hcn hpub hp, jsSplice1_indexOf_erase hmem]
  have hc1 : (unsubscribeSt st c).nodes[p]?
      = some { pnd with subscribers := pnd.subscribers.erase c } := by
    rw [hstep]; exact List.getElem?_set_self hpl
  have hc2 : (unsubscribeSt st c).nodes[c]? = some cnd := by
    rw [hstep]
    show (st.nodes.set p { pnd with subscribers := pnd.subscribers.erase c })[c]? = some cnd
    rw [List.getElem?_set_ne hne]
    exact hcn
  have hz : countSubs (unsubscribeSt st c) c = 0 := by
    rw [hstep]
    have heq := map_sum_set st.nodes p { pnd with subscribers := pnd.subscribers.erase c }
      (fun nd => nd.subscribers.count c) hpl
    rw [hpget] at heq
    have hproj : ({ pnd with subscribers := pnd.subscribers.erase c } : Node α).subscribers.count c
        = (pnd.subscribers.erase c).count c := rfl
    have her : (pnd.subscribers.erase c).count c = pnd.subscribers.count c - 1 :=
      List.count_erase_self c pnd.subscribers
    have hcp : 0 < pnd.subscribers.count c := List.count_pos_iff.mpr hmem
    have hcle := count_le_countSubs (List.getElem?_mem hp) c
    have hD : countSubs (⟨st.nodes.set p
          { pnd with subscribers := pnd.subscribers.erase c }⟩ : St α) c
        = ((st.nodes.set p { pnd with subscribers := pnd.subscribers.erase c }).map
            (fun nd => nd.subscribers.count c)).sum := rfl
    have hC : (st.nodes.map fun nd => nd.subscribers.count c).sum = countSubs st c := rfl
    omega
  refine ⟨hc1, hc2, ?_, ?_⟩
  · intro f n v e he hec
    rcases disp_origin he with hin | ⟨nd, hnd, hmemx⟩
    · unfold subsOf at hin
      cases hgn : (unsubscribeSt st c).nodes[n]? with
      | none => rw [hgn] at hin; simp at hin
      | some nnd =>
        rw [hgn] at hin
        have := one_le_countSubs (List.getElem?_mem hgn) (hec ▸ hin)
        omega
    · have := one_le_countSubs hnd (hec ▸ hmemx)
      omega
  · intro v f s snd hsmem hsget hsE
    have hsubc : subsOf (unsubscribeSt st c) c = cnd.subscribers := by
      unfold subsOf; rw [hc2]
    show _ ∈ disp (unsubscribeSt st c) (f + 1) (subsOf (unsubscribeSt st c) c) (.ok v)
    rw [hsubc]
    apply slot_mem_disp hsmem
    rw [slotLog_eq hsget]
    simp only [stage1, hsE, List.nil_append]
    exact List.mem_cons_self _ _

/-- Witness for C5: root 0, child 1, grandchild 2; unsubscribing 1
empties the root list, node 1 keeps its record, nothing is ever
delivered to 1 again, and a value emitted into 1 still reaches 2. -/
theorem c5_unsubscribe_witness :
    ((unsubscribeSt stC5 1).nodes[0]? = some ⟨List.erase [1] 1, none, none, none, false⟩) ∧
    ((unsubscribeSt stC5 1).nodes[1]? = some ⟨[2], some 0, none, none, true⟩) ∧
    (∀ f n v e, e ∈ disp (unsubscribeSt stC5 1) f (subsOf (unsubscribeSt stC5 1) n) v →
      e.1 ≠ 1) ∧
    (∀ (v : Nat) (f s : Nat) (snd : Node Nat), s ∈ ([2] : List Nat) →
      (unsubscribeSt stC5 1).nodes[s]? = some snd → snd.onEmit = none →
      (s, Res.ok v) ∈ emitLog (unsubscribeSt stC5 1) (f + 1) 1 (.ok v)) :=
  c5_unsubscribe_detaches_child stC5 0 1
    ⟨[1], none, none, none, false⟩ ⟨[2], some 0, none, none, true⟩
    rfl rfl rfl (by decide) (by decide) (by decide)

/-- C7: the subscribers of a merged node receive every value and every
failure emitted by any source.  General clause: in any state holding a
bridge node `b` subscribed on a source `src` and wired the way `merge`
wires it (`onEmit` the bound emit of the merged node `m`, `onError` the
closure re-emitting the reason as a rejected future into `m` - claim C10
proves `merge` creates exactly such bridges), every value `v` emitted
into the source is delivered as `ok v`, and every failure `r` emitted
into the source is delivered as `err r`, to each handlerless subscriber
`c` of the merged node.  Second clause: the concrete `merge([a, b])`
scenario, where emitting 10 into source 0, then 20 into source 1, then
the failure 7 into source 0 delivers exactly `ok 10`, `ok 20`, `err 7`,
in emission order, to the subscriber of the merged node.  The external
iterator adapter is consumed eagerly and exactly once at construction,
which the embedding models by `mergeSt` folding once over the snapshot
list of sources; the per-source structural drain-once effect is claim
C10. -/
theorem c7_merge_forwards_all_emissions [Inhabited α] :
    (∀ (st : St α) (src b m c fuel : Nat) (srcnd bnd mnd cnd : Node α) (v r : α),
      st.nodes[src]? = some srcnd → b ∈ srcnd.subscribers →
      st.nodes[b]? = some bnd → bnd.onEmit = some (.emitTo m) →
      bnd.onError = some (.rejectTo m) →
      st.nodes[m]? = some mnd → c ∈ mnd.subscribers →
      st.nodes[c]? = some cnd → cnd.onEmit = none → cnd.onError = none →
      cnd.hasNextErr = true →
      (c, Res.ok v) ∈ emitLog st (fuel + 3) src (.ok v) ∧
      (c, Res.err r) ∈ emitLog st (fuel + 3) src (.err r)) ∧
    ((runOps (⟨[]⟩ : St Nat) opsC7).2.filter (fun e => e.1 == 5)
      = [(5, Res.ok 10), (5, Res.ok 20), (5, Res.err 7)]) := by
  refine ⟨?_, by decide⟩
  intro st src b m c fuel srcnd bnd mnd cnd v r
    hsrc hbmem hbn hbE hbErr hmn hcmem hcn hcE hcErr hcnx
  have hsubsrc : subsOf st src = srcnd.subscribers := by unfold subsOf; rw [hsrc]
  have hsubm : subsOf st m = mnd.subscribers := by unfold subsOf; rw [hmn]
  constructor
  · show _ ∈ disp st (fuel + 3) (subsOf st src) (.ok v)
    rw [hsubsrc]
    apply slot_mem_disp hbmem
    rw [slotLog_eq hbn]
    simp only [stage1, hbE, applyH]
    apply List.mem_append_left
    rw [hsubm]
    apply slot_mem_disp hcmem
    rw [slotLog_eq hcn]
    simp only [stage1, hcE, List.nil_append]
    exact List.mem_cons_self _ _
  · show _ ∈ disp st (fuel + 3) (subsOf st src) (.err r)
    rw [hsubsrc]
    apply slot_mem_disp hbmem
    rw [slotLog_eq hbn]
    simp only [stage1, hbErr, applyH]
    apply List.mem_append_left
    rw [hsubm]
    apply slot_mem_disp hcmem
    rw [slotLog_eq hcn]
    simp only [stage1, hcErr, hcnx, if_true, List.nil_append]
    exact List.mem_cons_self _ _

/-- Witness for C7: in the concrete merged state `stC7`, the value 10
and the failure 7 emitted into source 0 both reach the subscriber 5 of
the merged node, through bridge 3. -/
theorem c7_merge_forwards_witness :
    (5, Res.ok 10) ∈ emitLog stC7 3 0 (.ok 10) ∧
    (5, Res.err 7) ∈ emitLog stC7 3 0 (.err 7) :=
  c7_merge_forwards_all_emissions.1 stC7 0 3 2 5 0
    ⟨[3], none, none, none, false⟩
    ⟨[], some 0, some (.emitTo 2), some (.rejectTo 2), true⟩
    ⟨[5], none, none, none, false⟩
    ⟨[], some 2, none, none, true⟩
    10 7 rfl (by decide) rfl rfl rfl rfl (by decide) rfl rfl rfl rfl

/-- C8: the public operations preserve the structural invariants: from
any state satisfying them (the empty initial state does), any sequence
of constructions, subscribes, unsubscribes, emits and merges leads to a
state where every node id occurs at most once across all subscribers
lists (`Inv.once`) and `publisher` is set exactly on the nodes carrying
a `_nextErr`, i.e. exactly the nodes produced by `subscribe`
(`Inv.pubIff`; `subscribe` always installs both, direct construction
installs neither). -/
theorem c8_operations_preserve_invariants [Inhabited α] (st : St α) (ops : List (Op α))
    (h : Inv st) : Inv ((runOps st ops).1) :=
  inv_runOps h ops

/-- Witness for C8: a run from the empty state exercising every kind of
operation, including the double unsubscribe of claim C2. -/
theorem c8_operations_preserve_invariants_witness :
    Inv ((runOps (⟨[]⟩ : St Nat)
      [.node, .node, .subscribe 0 none none, .merge [0, 1], .emit 3 0 (.ok 1),
       .unsubscribe 2, .unsubscribe 2]).1) :=
  c8_operations_preserve_invariants (⟨[]⟩ : St Nat) _ inv_nil

/-! ### Delivery uniqueness for claim C6 -/

theorem getElem_le_sum (l : List Nat) (i : Nat) (h : i < l.length) : l[i] ≤ l.sum :=
  List.le_sum_of_mem (List.getElem_mem h)

theorem sum_ge_two_of_two_indexes {l : List Nat} :
    ∀ {i j : Nat}, i ≠ j → (hi : i < l.length) → (hj : j < l.length) →
      1 ≤ l[i] → 1 ≤ l[j] → 2 ≤ l.sum := by
  induction l with
  | nil => intro i j _ hi _ _ _; simp at hi
  | cons x xs ih =>
    intro i j hij hi hj h1 h2
    match i, j with
    | 0, 0 => exact absurd rfl hij
    | 0, j + 1 =>
      have hx := getElem_le_sum xs j (by simpa using hj)
      simp only [List.getElem_cons_zero] at h1
      simp only [List.getElem_cons_succ] at h2
      simp only [List.sum_cons]
      omega
    | i + 1, 0 =>
      have hx := getElem_le_sum xs i (by simpa using hi)
      simp only [List.getElem_cons_zero] at h2
      simp only [List.getElem_cons_succ] at h1
      simp only [List.sum_cons]
      omega
    | i + 1, j + 1 =>
      have hx := @ih i j (by omega) (by simpa using hi) (by simpa using hj)
        (by simpa using h1) (by simpa using h2)
      simp only [List.sum_cons]
      omega

/-- When id `s` occurs exactly once across all subscribers lists, the
index of the node whose list holds it is unique. -/
theorem countSubs_unique_index {st : St α} {s n i : Nat} {nd nd2 : Node α}
    (hn : st.nodes[n]? = some nd) (hs : s ∈ nd.subscribers)
    (hi : st.nodes[i]? = some nd2) (hs2 : s ∈ nd2.subscribers)
    (honce : countSubs st s = 1) : i = n := by
  by_contra hne
  rcases List.getElem?_eq_some_iff.mp hn with ⟨hnl, hne1⟩
  rcases List.getElem?_eq_some_iff.mp hi with ⟨hil, hie1⟩
  have hnl2 : n < (st.nodes.map fun nd => nd.subscribers.count s).length := by simpa using hnl
  have hil2 : i < (st.nodes.map fun nd => nd.subscribers.count s).length := by simpa using hil
  have h1 : 1 ≤ (st.nodes.map fun nd => nd.subscribers.count s)[n] := by
    simp only [List.getElem_map]
    rw [hne1]
    exact List.count_pos_iff.mpr hs
  have h2 : 1 ≤ (st.nodes.map fun nd => nd.subscribers.count s)[i] := by
    simp only [List.getElem_map]
    rw [hie1]
    exact List.count_pos_iff.mpr hs2
  have hsum := sum_ge_two_of_two_indexes hne (by simpa using hil) (by simpa using hnl) h2 h1
  unfold countSubs at honce
  omega

theorem flatMap_eq_nil {g : Nat → List β} :
    ∀ {l : List Nat}, (∀ x ∈ l, g x = []) → l.flatMap g = [] := by
  intro l
  induction l with
  | nil => intro _; rfl
  | cons x xs ih =>
    intro hg
    rw [List.flatMap_cons, hg x (List.mem_cons_self x xs), List.nil_append]
    exact ih fun y hy => hg y (List.mem_cons_of_mem x hy)

theorem flatMap_single_of_count {s : Nat} {A : List β} {g : Nat → List β} :
    ∀ {l : List Nat}, l.count s = 1 → (∀ x ∈ l, g x = if x = s then A else []) →
      l.flatMap g = A := by
  intro l
  induction l with
  | nil => intro hcount _; simp at hcount
  | cons x xs ih =>
    intro hcount hg
    rw [List.flatMap_cons]
    by_cases hx : x = s
    · subst hx
      have hxs : xs.count x = 0 := by
        have := List.count_cons_self x xs
        omega
      have hnil : xs.flatMap g = [] := by
        apply flatMap_eq_nil
        intro y hy
        have hys : y ≠ x := by
          intro hh
          subst hh
          exact absurd (List.count_pos_iff.mpr hy) (by omega)
        rw [hg y (List.mem_cons_of_mem _ hy), if_neg hys]
      rw [hg x (List.mem_cons_self _ _), if_pos rfl, hnil, List.append_nil]
    · have hcnt : xs.count s = 1 := by
        rw [List.count_cons] at hcount
        simpa [hx] using hcount
      rw [hg x (List.mem_cons_self _ _), if_neg hx, List.nil_append]
      exact ih hcnt fun y hy => hg y (List.mem_cons_of_mem x hy)

/-- In a pure, id increasing state, a subscriber `s` that occurs exactly
once globally and whose `onEmit` is absent or the identity receives the
emitted value exactly once per emit: the projection of the dispatch log
of its parent list onto `s` is precisely `[(s, ok v)]`. -/
theorem disp_filter_identity [Inhabited α] {st : St α}
    (hpure : pureSt st) (hgt : subsGtSt st)
    {n s : Nat} {nd snd : Node α}
    (hn : st.nodes[n]? = some nd) (hs : s ∈ nd.subscribers)
    (hsn : st.nodes[s]? = some snd)
    (hsE : snd.onEmit = none ∨ snd.onEmit = some (.fn Res.ok))
    (honce : countSubs st s = 1) (f : Nat) (v : α) :
    (disp st (f + 1) nd.subscribers (.ok v)).filter (fun e => e.1 == s)
      = [(s, Res.ok v)] := by
  have honly : ∀ i, (hi : i < st.nodes.length) → s ∈ st.nodes[i].subscribers → i = n := by
    intro i hi hmemi
    exact countSubs_unique_index hn hs (List.getElem?_eq_some_iff.mpr ⟨hi, rfl⟩) hmemi honce
  have hnl : n < st.nodes.length := (List.getElem?_eq_some_iff.mp hn).1
  have hnget : st.nodes[n] = nd := (List.getElem?_eq_some_iff.mp hn).2
  have hsl : s < st.nodes.length := (List.getElem?_eq_some_iff.mp hsn).1
  have hsget : st.nodes[s] = snd := (List.getElem?_eq_some_iff.mp hsn).2
  have hns : n < s := hgt n hnl s (by rw [hnget]; exact hs)
  have hslot : ∀ x ∈ nd.subscribers,
      (slotLog st (fun l w => disp st f l w) x (.ok v)).filter (fun e => e.1 == s)
        = if x = s then [(s, Res.ok v)] else [] := by
    intro x hx
    have hnx : n < x := hgt n hnl x (by rw [hnget]; exact hx)
    by_cases hxs : x = s
    · subst hxs
      rw [if_pos rfl]
      have hstage : stage1 snd (.ok v) = (.ok v, none) := by
        rcases hsE with hE | hE
        · simp [stage1, hE]
        · simp [stage1, hE, applyH]
      rw [slotLog_eq hsn, hstage]
      simp only [List.nil_append]
      rw [List.filter_cons_of_pos (by simp)]
      have hsub2 : ∀ j ∈ snd.subscribers, x < j := by
        intro j hj
        exact hgt x hsl j (by rw [hsget]; exact hj)
      have hnotin : x ∉ snd.subscribers := by
        intro hmm
        exact absurd (honly x hsl (by rw [hsget]; exact hmm)) (by omega)
      have htail : (disp st f snd.subscribers (.ok v)).filter (fun e => e.1 == x) = [] := by
        rw [List.filter_eq_nil_iff]
        intro e he
        simp only [beq_iff_eq]
        exact disp_avoid hpure hgt honly (Nat.le_of_lt hns) hsub2 hnotin e he
      rw [htail]
    · rw [if_neg hxs]
      rw [List.filter_eq_nil_iff]
      intro e he
      simp only [beq_iff_eq]
      cases hgx : st.nodes[x]? with
      | none => rw [slotLog_none hgx] at he; simp at he
      | some xnd =>
        rcases List.getElem?_eq_some_iff.mp hgx with ⟨hxl, hxget⟩
        have hpx := hpure xnd (List.getElem?_mem hgx)
        rw [slotLog_eq hgx, stage1_eff_none hpx.1 hpx.2] at he
        simp only [List.nil_append] at he
        have havoid : ∀ e2 ∈ disp st f xnd.subscribers ((stage1 xnd (.ok v)).1), e2.1 ≠ s := by
          intro e2 he2
          have hxsub : ∀ j ∈ xnd.subscribers, x < j := by
            intro j hj
            exact hgt x hxl j (by rw [hxget]; exact hj)
          have hnotin : s ∉ xnd.subscribers := by
            intro hmm
            exact absurd (honly x hxl (by rw [hxget]; exact hmm)) (by omega)
          exact disp_avoid hpure hgt honly (Nat.le_of_lt hnx) hxsub hnotin e2 he2
        rcases hr : (stage1 xnd (.ok v)).1 with v2 | r2 | _
        · rw [hr] at he
          rcases List.mem_cons.mp he with he1 | he2
          · rw [he1]; exact hxs
          · rw [hr] at havoid; exact havoid e he2
        · rw [hr] at he
          by_cases hne2 : xnd.hasNextErr
          · simp only [hne2, if_true] at he
            rcases List.mem_cons.mp he with he1 | he2
            · rw [he1]; exact hxs
            · rw [hr] at havoid; exact havoid e he2
          · simp [hne2] at he
        · rw [hr] at he; simp at he
  have hcount : nd.subscribers.count s = 1 := by
    have h1 := List.count_pos_iff.mpr hs
    have h2 := count_le_countSubs (List.getElem?_mem hn) s
    omega
  rw [disp_succ, List.filter_flatMap]
  exact flatMap_single_of_count hcount hslot

/-- C6: in a state whose handlers are all pure (no merge bridges) and
whose subscriber ids grow (true in every reachable state, claim C8),
a subscriber `s` occurring exactly once globally, with an absent or
identity `onEmit` and no `onError`, receives exactly the sequence of
plain values emitted into its parent, unchanged and in emission order:
the projection of the log of the whole emit sequence onto `s` is
exactly `vs.map (fun v => (s, ok v))`.  Since this holds for each such
subscriber separately, several recording subscribers each receive every
value independently (see the witness with two subscribers and `[1, 2]`). -/
theorem c6_identity_subscriber_receives_in_order [Inhabited α] (st : St α)
    (n s : Nat) (nd snd : Node α) (vs : List α) (f : Nat)
    (hpure : pureSt st) (hgt : subsGtSt st)
    (hn : st.nodes[n]? = some nd) (hs : s ∈ nd.subscribers)
    (hsn : st.nodes[s]? = some snd)
    (hsE : snd.onEmit = none ∨ snd.onEmit = some (.fn Res.ok))
    (_hsErr : snd.onError = none)
    (honce : countSubs st s = 1) :
    ((runOps st (vs.map fun v => Op.emit (f + 1) n (.ok v))).2).filter (fun e => e.1 == s)
      = vs.map fun v => (s, Res.ok v) := by
  have hsubn : subsOf st n = nd.subscribers := by unfold subsOf; rw [hn]
  induction vs with
  | nil => rfl
  | cons v rest ih =>
    show ((disp st (f + 1) (subsOf st n) (.ok v))
        ++ (runOps st (rest.map fun v => Op.emit (f + 1) n (.ok v))).2).filter
          (fun e => e.1 == s)
      = (v :: rest).map fun v => (s, Res.ok v)
    rw [List.filter_append, hsubn,
      disp_filter_identity hpure hgt hn hs hsn hsE honce f v, ih]
    rfl

/-- Witness for C6: root 0 with two recording subscribers 1 and 2 and
the emitted sequence `[1, 2]`: both logs are `[1, 2]`, each obtained by
applying the claim theorem to its own subscriber. -/
theorem c6_identity_subscriber_witness :
    (((runOps stC6 ([1, 2].map fun v => Op.emit 1 0 (.ok v))).2).filter (fun e => e.1 == 1)
      = [(1, Res.ok 1), (1, Res.ok 2)]) ∧
    (((runOps stC6 ([1, 2].map fun v => Op.emit 1 0 (.ok v))).2).filter (fun e => e.1 == 2)
      = [(2, Res.ok 1), (2, Res.ok 2)]) :=
  ⟨c6_identity_subscriber_receives_in_order stC6 0 1
      ⟨[1, 2], none, none, none, false⟩ ⟨[], some 0, none, none, true⟩ [1, 2] 0
      (by unfold pureSt; decide) (by unfold subsGtSt; decide) rfl (by decide) rfl
      (Or.inl rfl) rfl (by decide),
   c6_identity_subscriber_receives_in_order stC6 0 2
      ⟨[1, 2], none, none, none, false⟩ ⟨[], some 0, none, none, true⟩ [1, 2] 0
      (by unfold pureSt; decide) (by unfold subsGtSt; decide) rfl (by decide) rfl
      (Or.inl rfl) rfl (by decide)⟩

/-! ### The structural effect of merge, for claim C10 -/

/-- Folding `subscribe(emitTo k, rejectTo k)` over a duplicate free list
of valid sources: one bridge node is appended per source, in order, each
wired to its source as publisher; nodes outside the source list are
untouched, and each source gets exactly its own bridge id pushed. -/
theorem merge_fold_spec (k : Nat) :
    ∀ (srcs : List Nat) (acc : St α),
      (∀ x ∈ srcs, x < acc.nodes.length) → srcs.Nodup →
      ((srcs.foldl (fun a s => subscribeSt a s (some (.emitTo k)) (some (.rejectTo k)))
          acc).nodes.length = acc.nodes.length + srcs.length) ∧
      (∀ j, j < acc.nodes.length → j ∉ srcs →
        (srcs.foldl (fun a s => subscribeSt a s (some (.emitTo k)) (some (.rejectTo k)))
          acc).nodes[j]? = acc.nodes[j]?) ∧
      (∀ i, (hi : i < srcs.length) →
        (srcs.foldl (fun a s => subscribeSt a s (some (.emitTo k)) (some (.rejectTo k)))
          acc).nodes[acc.nodes.length + i]?
          = some ⟨[], some (srcs.get ⟨i, hi⟩), some (.emitTo k), some (.rejectTo k), true⟩) ∧
      (∀ i, (hi : i < srcs.length) → ∀ nd : Node α,
        acc.nodes[srcs.get ⟨i, hi⟩]? = some nd →
        (srcs.foldl (fun a s => subscribeSt a s (some (.emitTo k)) (some (.rejectTo k)))
          acc).nodes[srcs.get ⟨i, hi⟩]?
          = some (pushSub nd (acc.nodes.length + i))) := by
  intro srcs
  induction srcs with
  | nil =>
    intro acc _ _
    refine ⟨by simp, fun j _ _ => rfl, fun i hi => absurd hi (by simp), fun i hi => absurd hi (by simp)⟩
  | cons x rest ih =>
    intro acc hval hnd
    have hx : x < acc.nodes.length := hval x (List.mem_cons_self x rest)
    have hxget : acc.nodes[x]? = some acc.nodes[x] := List.getElem?_eq_getElem hx
    rcases List.nodup_cons.mp hnd with ⟨hxrest, hndrest⟩
    have hlen1 : (subscribeSt acc x (some (.emitTo k)) (some (.rejectTo k))).nodes.length
        = acc.nodes.length + 1 := subscribeSt_length hxget _ _
    have hvalrest : ∀ y ∈ rest,
        y < (subscribeSt acc x (some (.emitTo k)) (some (.rejectTo k))).nodes.length := by
      intro y hy
      rw [hlen1]
      exact Nat.lt_succ_of_lt (hval y (List.mem_cons_of_mem x hy))
    have hfold : (x :: rest).foldl
        (fun a s => subscribeSt a s (some (.emitTo k)) (some (.rejectTo k))) acc
        = rest.foldl (fun a s => subscribeSt a s (some (.emitTo k)) (some (.rejectTo k)))
            (subscribeSt acc x (some (.emitTo k)) (some (.rejectTo k))) := rfl
    rcases ih (subscribeSt acc x (some (.emitTo k)) (some (.rejectTo k))) hvalrest hndrest
      with ⟨ihlen, ihother, ihbridge, ihpush⟩
    refine ⟨?_, ?_, ?_, ?_⟩
    · rw [hfold, ihlen, hlen1]
      simp [Nat.add_assoc, Nat.add_comm 1 rest.length]
    · intro j hj hjmem
      rw [hfold]
      have hj1 : j < (subscribeSt acc x (some (.emitTo k)) (some (.rejectTo k))).nodes.length := by
        rw [hlen1]; omega
      have hjx : j ≠ x := fun hh => hjmem (hh ▸ List.mem_cons_self x rest)
      have hjrest : j ∉ rest := fun hh => hjmem (List.mem_cons_of_mem x hh)
      rw [ihother j hj1 hjrest]
      exact subscribeSt_get_other hxget _ _ hjx hj
    · intro i hi
      match i with
      | 0 =>
        rw [hfold]
        have hLrest : acc.nodes.length ∉ rest := by
          intro hh
          exact absurd (hval _ (List.mem_cons_of_mem x hh)) (Nat.lt_irrefl _)
        have hL1 : acc.nodes.length
            < (subscribeSt acc x (some (.emitTo k)) (some (.rejectTo k))).nodes.length := by
          rw [hlen1]; omega
        rw [Nat.add_zero, ihother _ hL1 hLrest]
        exact subscribeSt_get_child hxget _ _
      | i + 1 =>
        rw [hfold]
        have harith : acc.nodes.length + (i + 1)
            = (subscribeSt acc x (some (.emitTo k)) (some (.rejectTo k))).nodes.length + i := by
          rw [hlen1]; omega
        rw [harith]
        exact ihbridge i (by simpa using hi)
    · intro i hi nd hndget
      match i with
      | 0 =>
        rw [hfold]
        have hget0 : (x :: rest).get ⟨0, hi⟩ = x := rfl
        rw [hget0] at hndget ⊢
        have hndx : nd = acc.nodes[x] := by
          rw [hxget] at hndget
          exact (Option.some_inj.mp hndget).symm
        have hx1 : x < (subscribeSt acc x (some (.emitTo k)) (some (.rejectTo k))).nodes.length := by
          rw [hlen1]; omega
        rw [ihother x hx1 hxrest, Nat.add_zero]
        rw [subscribeSt_get_pub hxget _ _, hndx]
      | i + 1 =>
        rw [hfold]
        have hgety : (x :: rest).get ⟨i + 1, hi⟩ = rest.get ⟨i, by simpa using hi⟩ := rfl
        rw [hgety] at hndget ⊢
        have hyx : rest.get ⟨i, by simpa using hi⟩ ≠ x := by
          intro hh
          exact hxrest (hh ▸ List.get_mem rest i (by simpa using hi))
        have hyl : rest.get ⟨i, by simpa using hi⟩ < acc.nodes.length :=
          hval _ (List.mem_cons_of_mem x (List.get_mem rest i (by simpa using hi)))
        have hacc1 : (subscribeSt acc x (some (.emitTo k))
            (some (.rejectTo k))).nodes[rest.get ⟨i, by simpa using hi⟩]? = some nd := by
          rw [subscribeSt_get_other hxget _ _ hyx hyl]
          exact hndget
        have harith : acc.nodes.length + (i + 1)
            = (subscribeSt acc x (some (.emitTo k)) (some (.rejectTo k))).nodes.length + i := by
          rw [hlen1]; omega
        rw [harith]
        exact ihpush i (by simpa using hi) nd hacc1

/-- C10: `merge` appends exactly one fresh bridge subscriber per source,
in iteration order: the merged node `k` (allocated at the old heap size)
is a plain root (no publisher, no handlers, no `nextErr`), bridge `i`
sits at id `k + 1 + i` with publisher `srcs[i]`, the bound emit of the
merged node as `onEmit` and the failure forwarding closure as `onError`,
and the subscribers list of each source becomes its old list with its
own bridge id appended.  The merged node has no publisher, so
`unsubscribe` on it changes nothing: the bridge subscriptions onto the
sources cannot be severed through the merged node. -/
theorem c10_merge_appends_one_bridge_per_source [Inhabited α] (st : St α) (srcs : List Nat)
    (hval : ∀ x ∈ srcs, x < st.nodes.length) (hnd : srcs.Nodup) :
    ((applyOp st (.merge srcs)).1.nodes.length = st.nodes.length + 1 + srcs.length) ∧
    ((applyOp st (.merge srcs)).1.nodes[st.nodes.length]? = some freshNode) ∧
    (∀ i, (hi : i < srcs.length) →
      (applyOp st (.merge srcs)).1.nodes[st.nodes.length + 1 + i]?
        = some ⟨[], some (srcs.get ⟨i, hi⟩), some (.emitTo st.nodes.length),
            some (.rejectTo st.nodes.length), true⟩) ∧
    (∀ i, (hi : i < srcs.length) →
      subsOf (applyOp st (.merge srcs)).1 (srcs.get ⟨i, hi⟩)
        = subsOf st (srcs.get ⟨i, hi⟩) ++ [st.nodes.length + 1 + i]) ∧
    (unsubscribeSt (applyOp st (.merge srcs)).1 st.nodes.length
        = (applyOp st (.merge srcs)).1) := by
  have hacc : (⟨st.nodes ++ [freshNode]⟩ : St α).nodes.length = st.nodes.length + 1 := by simp
  have hval1 : ∀ x ∈ srcs, x < (⟨st.nodes ++ [freshNode]⟩ : St α).nodes.length := by
    intro x hx; rw [hacc]; exact Nat.lt_succ_of_lt (hval x hx)
  rcases merge_fold_spec st.nodes.length srcs (⟨st.nodes ++ [freshNode]⟩ : St α) hval1 hnd
    with ⟨hlen, hother, hbridge, hpush⟩
  have hshow : (applyOp st (.merge srcs)).1
      = srcs.foldl (fun a s => subscribeSt a s (some (.emitTo st.nodes.length))
          (some (.rejectTo st.nodes.length))) (⟨st.nodes ++ [freshNode]⟩ : St α) := rfl
  have hfreshget : (⟨st.nodes ++ [freshNode]⟩ : St α).nodes[st.nodes.length]? = some freshNode := by
    show (st.nodes ++ [freshNode])[st.nodes.length]? = some freshNode
    exact List.getElem?_concat_length st.nodes freshNode
  have hLmem : st.nodes.length ∉ srcs := by
    intro hh
    exact absurd (hval _ hh) (Nat.lt_irrefl _)
  have hmerged : (applyOp st (.merge srcs)).1.nodes[st.nodes.length]? = some freshNode := by
    rw [hshow, hother st.nodes.length (by omega) hLmem]
    exact hfreshget
  refine ⟨?_, hmerged, ?_, ?_, ?_⟩
  · rw [hshow, hlen, hacc]
  · intro i hi
    have := hbridge i hi
    rw [hacc] at this
    rw [hshow]
    exact this
  · intro i hi
    have hyl : srcs.get ⟨i, hi⟩ < st.nodes.length := hval _ (List.get_mem srcs i hi)
    have hgety : (⟨st.nodes ++ [freshNode]⟩ : St α).nodes[srcs.get ⟨i, hi⟩]?
        = st.nodes[srcs.get ⟨i, hi⟩]? := by
      show (st.nodes ++ [freshNode])[srcs.get ⟨i, hi⟩]? = _
      exact List.getElem?_append_left hyl
    have hndget : st.nodes[srcs.get ⟨i, hi⟩]?
        = some st.nodes[srcs.get ⟨i, hi⟩] := List.getElem?_eq_getElem hyl
    have hres := hpush i hi st.nodes[srcs.get ⟨i, hi⟩] (by rw [hgety]; exact hndget)
    rw [hacc] at hres
    unfold subsOf
    rw [hshow, hres, hndget]
    simp [pushSub, Nat.add_assoc]
  · have hpubnone : (freshNode : Node α).publisher = none := rfl
    unfold unsubscribeSt
    simp only [hmerged, hpubnone]

/-- Witness for C10: merging the two fresh roots of `stC10` (heap size
2, merged node 2, bridges 3 and 4). -/
theorem c10_merge_witness :
    ((applyOp stC10 (.merge [0, 1])).1.nodes.length = 2 + 1 + 2) ∧
    ((applyOp stC10 (.merge [0, 1])).1.nodes[2]? = some freshNode) ∧
    (∀ i, (hi : i < ([0, 1] : List Nat).length) →
      (applyOp stC10 (.merge [0, 1])).1.nodes[2 + 1 + i]?
        = some ⟨[], some (([0, 1] : List Nat).get ⟨i, hi⟩), some (.emitTo 2),
            some (.rejectTo 2), true⟩) ∧
    (∀ i, (hi : i < ([0, 1] : List Nat).length) →
      subsOf (applyOp stC10 (.merge [0, 1])).1 (([0, 1] : List Nat).get ⟨i, hi⟩)
        = subsOf stC10 (([0, 1] : List Nat).get ⟨i, hi⟩) ++ [2 + 1 + i]) ∧
    (unsubscribeSt (applyOp stC10 (.merge [0, 1])).1 2 = (applyOp stC10 (.merge [0, 1])).1) :=
  c10_merge_appends_one_bridge_per_source stC10 [0, 1] (by decide) (by decide)

/-- Witness for C1: at fuel 2 the delivery log of `root.emit 5` is
exactly `[(1, ok 5), (3, ok 5)]`, and the entry delivered to node 1 hits
neither the stalled branch 2 nor its child 4. -/
theorem c1_stalled_branch_witness :
    emitLog stC1 2 0 (.ok 5) = [(1, Res.ok 5), (3, Res.ok 5)] ∧
    ((1, Res.ok 5).1 ≠ 2 ∧ (1, Res.ok 5).1 ≠ 4) :=
  ⟨c1_stalled_branch_is_isolated.1 0,
   c1_stalled_branch_is_isolated.2.1 2 (1, Res.ok 5) (by decide)⟩

end Yaku
